import Mathlib

/-!
Shallow embedding of the text-classification and extraction core of the
hywep-recruit-etl-serverless repository (src/lambda.ts and its modular
variants under src/unnamed), together with proofs settling the frozen
claims about it.  Strings are modelled as `List Char` internally, with
`String` at the API boundaries; JavaScript regular-expression searches are
modelled by explicit scanners with the same backtracking semantics.
Scanners whose recursion is not structural take an explicit fuel argument;
every wrapper passes `length + 1` fuel while each step consumes at least
one character, so the fuel never runs out and the model agrees with the
JavaScript source on all inputs.
-/

/-- Whitespace test modelling the characters matched by the JavaScript
class `\s` that can occur in this data (space, tab, newline, carriage
return). -/
def isWs (c : Char) : Bool :=
  c == ' ' || c == '\t' || c == '\n' || c == '\r'

/-- JavaScript `String.prototype.trim`, on character lists. -/
def trimChars (l : List Char) : List Char :=
  ((l.dropWhile isWs).reverse.dropWhile isWs).reverse

/-- `pre` is a prefix of `l` (JavaScript `startsWith`). -/
def leadsWith : List Char → List Char → Bool
  | [], _ => true
  | _ :: _, [] => false
  | p :: ps, c :: cs => p == c && leadsWith ps cs

/-- `needle` occurs as a contiguous substring of `hay`
(JavaScript `includes`). -/
def containsSub (needle : List Char) : List Char → Bool
  | [] => leadsWith needle []
  | c :: cs => leadsWith needle (c :: cs) || containsSub needle cs

/-- Replace the first occurrence of `pat` in `l` by `repl`
(JavaScript `String.prototype.replace` with a plain-string pattern). -/
def replaceFirst (l pat repl : List Char) : List Char :=
  match l with
  | [] => if pat.isEmpty then repl else []
  | c :: cs =>
    if leadsWith pat (c :: cs) then repl ++ (c :: cs).drop pat.length
    else c :: replaceFirst cs pat repl

/-- JavaScript `padStart(2, "0")`. -/
def pad2 (l : List Char) : List Char :=
  if l.length ≥ 2 then l else List.replicate (2 - l.length) ('0') ++ l

/-- Insert a string into an insertion-ordered set modelled as a list
(JavaScript `Set.prototype.add`). -/
def addSet (l : List String) (x : String) : List String :=
  if l.contains x then l else l ++ [x]

/-- Add every element of `xs` to the insertion-ordered set `l`. -/
def addAllSet (l : List String) (xs : List String) : List String :=
  xs.foldl addSet l

/-- One row update of the Levenshtein dynamic program: given the previous
row tail `prev` (aligned with the remaining candidate characters `xs`), the
diagonal value `diag` and the value `left` just computed, produce the rest
of the new row for target character `y`. -/
def levRowGo (y : Char) : List Char → Nat → Nat → List Nat → List Nat
  | [], _, _, _ => []
  | _ :: _, _, _, [] => []
  | x :: xs, diag, left, up :: rest =>
    let cur := Nat.min (Nat.min (up + 1) (left + 1))
      (diag + (if x == y then 0 else 1))
    cur :: levRowGo y xs up cur rest

/-- Full row update for target character `y`. -/
def levRow (xs : List Char) (y : Char) (prev : List Nat) : List Nat :=
  match prev with
  | [] => []
  | p0 :: rest => (p0 + 1) :: levRowGo y xs p0 (p0 + 1) rest

/-- Levenshtein edit distance (unit costs), as computed by the
`fast-levenshtein` package used in src/lambda.ts. -/
def lev (xs ys : List Char) : Nat :=
  (ys.foldl (fun r y => levRow xs y r) (List.range (xs.length + 1))).getLastD 0

/-! ### Taxonomy (src/constants.ts) -/

/-- The `colleges` table of src/constants.ts: college name to majors, in
declaration order (the commented-out medical college is absent). -/
def colleges : List (String × List String) :=
  [("공과대학",
    ["반도체공학과", "건축학부", "건축공학부", "건설환경공학과", "도시공학과",
     "자원환경공학과", "융합전자공학부", "전기ㆍ생체공학부", "신소재공학부",
     "화학공학과", "생명공학과", "유기나노공학과", "에너지공학과", "기계공학부",
     "원자력공학과", "산업공학과"]),
   ("소프트웨어대학",
    ["데이터사이언스학부", "컴퓨터소프트웨어학부", "정보시스템학과", "미래자동차공학과"]),
   ("간호대학", ["간호학과"]),
   ("인문과학대학",
    ["국어국문학과", "중어중문학과", "영어영문학과", "독어독문학과", "사학과",
     "철학과", "미래인문학융합학부", "대중문화·시나리오학과"]),
   ("사회과학대학",
    ["정치외교학과", "사회학과", "미디어커뮤니케이션학과", "관광학부"]),
   ("생활과학대학",
    ["의류학과", "식품영양학과", "실내건축디자인학과", "기능성식품학과"]),
   ("자연과학대학", ["수학과", "물리학과", "화학과", "생명과학과"]),
   ("정책과학대학", ["정책학과", "행정학과"]),
   ("경제금융대학", ["경제금융학부"]),
   ("경영대학", ["경영학부", "파이낸스경영학과"]),
   ("사범대학",
    ["교육학과", "교육공학과", "국어교육과", "영어교육과", "수학교육과",
     "응용미술교육과"]),
   ("국제학부", ["국제학부"]),
   ("음악대학", ["성악과", "작곡과", "피아노과", "관현악과", "국악과"]),
   ("예술체육대학",
    ["스포츠산업과학부 스포츠사이언스전공", "스포츠산업과학부 스포츠매니지먼트전공",
     "연극영화학과", "무용학과"])]

/-- The `relatedColleges` table of src/constants.ts. -/
def relatedColleges : List (String × List String) :=
  [("이공계열", ["공과대학", "소프트웨어대학", "자연과학대학"]),
   ("공학계열", ["공과대학", "소프트웨어대학"]),
   ("상경계열", ["경제금융대학", "경영대학", "사회과학대학"]),
   ("인문계열", ["인문과학대학", "사회과학대학", "사범대학"]),
   ("인문사회계열", ["인문과학대학", "사회과학대학", "정책과학대학", "사범대학"]),
   ("사회계열", ["사회과학대학", "정책과학대학"]),
   ("어문계열", ["인문과학대학"]),
   ("SW", ["소프트웨어대학"])]

/-- The `special` table of src/constants.ts. -/
def special : List (String × List String) :=
  [("전산",
    ["컴퓨터소프트웨어학부", "데이터사이언스학부", "정보시스템학과",
     "융합전자공학부", "미래자동차공학과"]),
   ("광고홍보",
    ["미디어커뮤니케이션학과", "대중문화·시나리오학과", "경영학부", "사회학과"]),
   ("의료바이오", ["의학과", "간호학과", "생명공학과", "화학공학과"]),
   ("디자인", ["응용미술교육과", "실내건축디자인학과", "대중문화·시나리오학과"]),
   ("컴퓨터공학", ["컴퓨터소프트웨어학부"]),
   ("예체능",
    ["응용미술교육과", "실내건축디자인학과", "대중문화·시나리오학과",
     "시각디자인학과", "스포츠산업과학부 스포츠사이언스전공",
     "스포츠산업과학부 스포츠매니지먼트전공", "연극영화학과", "무용학과"]),
   ("전기전자공학", ["전기ㆍ생체공학부"]),
   ("재료공학", ["신소재공학부"]),
   ("생물학", ["생명공학과"]),
   ("창업", ["창업 경험"])]

/-! ### Hierarchical matcher (`findRelatedMajor` in src/lambda.ts) -/

/-- One step of the global alternation replace
`input.replace(/학과|학부|전공|학/g, "")` used on atomic inputs: at each
position the alternatives are tried in order and a match restarts the scan
after its end.  Fuel-based; the wrapper passes enough fuel. -/
def stripMorph4Go : Nat → List Char → List Char
  | 0, l => l
  | _ + 1, [] => []
  | fuel + 1, c :: cs =>
    if leadsWith ("학과".data) (c :: cs) then stripMorph4Go fuel ((c :: cs).drop 2)
    else if leadsWith ("학부".data) (c :: cs) then stripMorph4Go fuel ((c :: cs).drop 2)
    else if leadsWith ("전공".data) (c :: cs) then stripMorph4Go fuel ((c :: cs).drop 2)
    else if c == '학' then stripMorph4Go fuel cs
    else c :: stripMorph4Go fuel cs

/-- `input.replace(/학과|학부|전공|학/g, "")`. -/
def stripMorph4 (l : List Char) : List Char :=
  stripMorph4Go (l.length + 1) l

/-- Global alternation replace `major.replace(/학과|학부|전공/g, "")` used
inside tier 5 and the fuzzy corrector. -/
def stripMorph3Go : Nat → List Char → List Char
  | 0, l => l
  | _ + 1, [] => []
  | fuel + 1, c :: cs =>
    if leadsWith ("학과".data) (c :: cs) then stripMorph3Go fuel ((c :: cs).drop 2)
    else if leadsWith ("학부".data) (c :: cs) then stripMorph3Go fuel ((c :: cs).drop 2)
    else if leadsWith ("전공".data) (c :: cs) then stripMorph3Go fuel ((c :: cs).drop 2)
    else c :: stripMorph3Go fuel cs

/-- `major.replace(/학과|학부|전공/g, "")`. -/
def stripMorph3 (l : List Char) : List Char :=
  stripMorph3Go (l.length + 1) l

/-- Lower-casing of a character list (JavaScript `toLowerCase`; the data
contains only ASCII letters and Korean characters, on which
`Char.toLower` agrees with it). -/
def lowerL (l : List Char) : List Char :=
  l.map Char.toLower

/-- Split on runs matching the regular expression `[,\s]+`
(JavaScript `split(/[,\s]+/)`): a maximal run of commas and whitespace is
one separator; empty pieces can only arise at the ends.  Fuel-based. -/
def splitCommaWsGo : Nat → List Char → List Char → List (List Char)
  | 0, cur, _ => [cur.reverse]
  | _ + 1, cur, [] => [cur.reverse]
  | fuel + 1, cur, c :: cs =>
    if c == ',' || isWs c then
      cur.reverse :: splitCommaWsGo fuel [] (cs.dropWhile (fun d => d == ',' || isWs d))
    else splitCommaWsGo fuel (c :: cur) cs

/-- `str.split(/[,\s]+/)`. -/
def splitCommaWs (l : List Char) : List (List Char) :=
  splitCommaWsGo (l.length + 1) [] l

/-- The pre-pass of `findRelatedMajor`: split each token on `[,\s]+`,
strip the morphemes 학과/학부/전공/학, trim, lower-case, and drop empty
results. -/
def flatInputs (inputs : List String) : List (List Char) :=
  ((inputs.flatMap (fun s => splitCommaWs s.data)).map
    (fun l => lowerL (trimChars (stripMorph4 l)))).filter (fun l => !l.isEmpty)

/-- The normalized form of a canonical major used by tier 5 and the fuzzy
corrector: suffixes 학과/학부/전공 stripped, lower-cased. -/
def majNorm (m : String) : List Char :=
  lowerL (stripMorph3 m.data)

/-- The deduplicated pool `allMajors` of `findRelatedMajor`: every major
from `colleges` then from `special`, first occurrence kept (JavaScript
`Set` insertion order). -/
def allMajorsList : List String :=
  addAllSet (addAllSet []
    ((colleges.map Prod.snd).flatten)) ((special.map Prod.snd).flatten)

/-- One accumulation step of the corrector `correctMajor`: keep the first
candidate at distance at most 1, replacing it only on a strictly smaller
distance. -/
def corrStep (input : List Char) (st : Option (String × Nat)) (m : String) :
    Option (String × Nat) :=
  let d := lev input (majNorm m)
  match st with
  | none => if d ≤ 1 then some (m, d) else none
  | some (_, bd) => if d < bd && d ≤ 1 then some (m, d) else st

/-- The fold underlying `correctMajor`. -/
def corrFold (input : List Char) : Option (String × Nat) :=
  allMajorsList.foldl (corrStep input) none

/-- `correctMajor` of src/lambda.ts: the best fuzzy candidate at distance
at most 1, or the input itself when none qualifies (`bestMatch || input`;
no canonical major is the empty string, so the `Option` state models the
empty-string sentinel faithfully). -/
def correctMajor (input : List Char) : String :=
  match corrFold input with
  | some (b, _) => b
  | none => String.mk input

/-- Generic tier shape of `findRelatedMajor`: fold over a table, and for
every entry whose condition holds add that entry's majors to the result
set and raise the `foundExactMatch` flag. -/
def tierFold {E : Type} (cond : E → Bool) (adds : E → List String)
    (entries : List E) (st : List String × Bool) : List String × Bool :=
  entries.foldl
    (fun s e => if cond e then (addAllSet s.1 (adds e), true) else s) st

/-- Tier 2 condition: bidirectional substring test between the atomic
input and a special-category name. -/
def tier2Cond (input : List Char) (e : String × List String) : Bool :=
  containsSub input e.1.data || containsSub e.1.data input

/-- Tier 3 condition: the group name contains the input, or the input
contains the group name with its first occurrence of "계열" removed. -/
def tier3Cond (input : List Char) (e : String × List String) : Bool :=
  containsSub input e.1.data ||
    containsSub (replaceFirst e.1.data ("계열".data) []) input

/-- Majors added by a matching tier-3 group: every major of every college
in the group, in table order. -/
def tier3Adds (e : String × List String) : List String :=
  e.2.flatMap (fun c => ((colleges.lookup c).getD []))

/-- Tier 4 condition: the input contains the college name with its first
occurrence of "대학" removed. -/
def tier4Cond (input : List Char) (e : String × List String) : Bool :=
  containsSub (replaceFirst e.1.data ("대학".data) []) input

/-- Tier 5 condition on a single canonical major: prefix containment in
either direction between the suffix-stripped, case-folded major and the
likewise normalized input. -/
def tier5Cond (input : List Char) (m : String) : Bool :=
  leadsWith (lowerL (stripMorph3 input)) (majNorm m) ||
    leadsWith (majNorm m) (lowerL (stripMorph3 input))

/-- All (college, major) pairs flattened to their majors in table order,
the domain of tier 5. -/
def collegeMajorsFlat : List String :=
  (colleges.map Prod.snd).flatten

/-- Tiers 2-5 of `findRelatedMajor` run in order on one atomic input,
threading the result set and the `foundExactMatch` flag. -/
def tiers2to5 (input : List Char) (st : List String × Bool) :
    List String × Bool :=
  tierFold (tier5Cond input) (fun m => [m]) collegeMajorsFlat
    (tierFold (tier4Cond input) Prod.snd colleges
      (tierFold (tier3Cond input) tier3Adds relatedColleges
        (tierFold (tier2Cond input) Prod.snd special st)))

/-- The `foundExactMatch` flag after tiers 2-5 (it does not depend on the
accumulated result set). -/
def tierMatch (input : List Char) : Bool :=
  (tiers2to5 input ([], false)).2

/-- Processing of one atomic input by `findRelatedMajor`: run tiers 2-5,
and when none matched, add the corrected input to the result set exactly
when the correction changed it. -/
def processInput (acc : List String) (input : List Char) : List String :=
  let st := tiers2to5 input (acc, false)
  if st.2 then st.1
  else
    let c := correctMajor input
    if c ≠ String.mk input then addSet st.1 c else st.1

/-- The main loop of `findRelatedMajor` over the flattened atomic inputs,
with its early return on the sentinel "무관". -/
def frmGo : List (List Char) → List String → List String
  | [], acc => acc
  | i :: rest, acc =>
    if i = "무관".data then [String.mk i] else frmGo rest (processInput acc i)

/-- `findRelatedMajor` of src/lambda.ts. -/
def findRelatedMajor (inputs : List String) : List String :=
  frmGo (flatInputs inputs) []

/-! ### Token normalizer (`parseMajors`, two in-repo variants) -/

/-- A JavaScript word character (`\w`, i.e. `[A-Za-z0-9_]`). -/
def isWordChar (c : Char) : Bool :=
  c.isAlphanum || c == '_'

/-- Anchored match of the special-case regex `\b(S\/W)\b` (flags `gi`):
case-insensitive "S/W" with word boundaries; `prevW` records whether the
character before the current position is a word character. -/
def swAt (prevW : Bool) (l : List Char) : Option (List Char × List Char) :=
  match l with
  | a :: b :: c :: r =>
    if !prevW && (a == 'S' || a == 's') && b == '/' && (c == 'W' || c == 'w')
        && (match r with | d :: _ => !isWordChar d | [] => true)
    then some ([a, b, c], r) else none
  | _ => none

/-- Global scan extracting "S/W" matches (pushed onto the specials list)
and deleting them from the text. -/
def extractSWGo : Nat → Bool → List Char → List String × List Char
  | 0, _, l => ([], l)
  | _ + 1, _, [] => ([], [])
  | fuel + 1, prevW, c :: cs =>
    match swAt prevW (c :: cs) with
    | some (m, rest) =>
      let p := extractSWGo fuel true rest
      (String.mk m :: p.1, p.2)
    | none =>
      let p := extractSWGo fuel (isWordChar c) cs
      (p.1, c :: p.2)

/-- `selection.replace(specialRegex, cb)` together with the pushed
matches. -/
def extractSW (l : List Char) : List String × List Char :=
  extractSWGo (l.length + 1) false l

/-- Global replace of the bullet-marker regex `[-•*]\s*` by `repl`
("" in src/lambda.ts, " " in the modular variant). -/
def stripBulletsGo (repl : List Char) : Nat → List Char → List Char
  | 0, l => l
  | _ + 1, [] => []
  | fuel + 1, c :: cs =>
    if c == '-' || c == '•' || c == '*' then
      repl ++ stripBulletsGo repl fuel (cs.dropWhile isWs)
    else c :: stripBulletsGo repl fuel cs

/-- `selection.replace(/[-•*]\s*/g, repl)`. -/
def stripBullets (repl : List Char) (l : List Char) : List Char :=
  stripBulletsGo repl (l.length + 1) l

/-- Leftmost separator match of `/,|\/| 및 |∙|\n/` (src/lambda.ts):
number of characters consumed.  The alternatives are tried in order. -/
def sepAtL : List Char → Option Nat
  | [] => none
  | c :: cs =>
    if c == ',' then some 1
    else if c == '/' then some 1
    else if leadsWith (" 및 ".data) (c :: cs) then some 3
    else if c == Char.ofNat 8729 then some 1
    else if c == '\n' then some 1
    else none

/-- Leftmost separator match of `/,|\/| 및 |∙|\n|\s+/` (the modular
variant in src/unnamed/part_001), with the greedy whitespace-run
alternative last. -/
def sepAtM : List Char → Option Nat
  | [] => none
  | c :: cs =>
    if c == ',' then some 1
    else if c == '/' then some 1
    else if leadsWith (" 및 ".data) (c :: cs) then some 3
    else if c == Char.ofNat 8729 then some 1
    else if c == '\n' then some 1
    else if isWs c then some (1 + (cs.takeWhile isWs).length)
    else none

/-- JavaScript `split` on a separator regex given by `sepAt`: pieces
between separator matches; adjacent separators yield empty pieces. -/
def splitBySepGo (sepAt : List Char → Option Nat) :
    Nat → List Char → List Char → List (List Char)
  | 0, cur, _ => [cur.reverse]
  | _ + 1, cur, [] => [cur.reverse]
  | fuel + 1, cur, c :: cs =>
    match sepAt (c :: cs) with
    | some n => cur.reverse :: splitBySepGo sepAt fuel [] ((c :: cs).drop n)
    | none => splitBySepGo sepAt fuel (c :: cur) cs

/-- `str.split(sepRegex)`. -/
def splitBySep (sepAt : List Char → Option Nat) (l : List Char) :
    List (List Char) :=
  splitBySepGo sepAt (l.length + 1) [] l

/-- `item.split(/등|관련/)[0]`: the prefix before the first occurrence of
the et-al marker 등 or the related-to marker 관련. -/
def takeBeforeMark : List Char → List Char
  | [] => []
  | c :: cs =>
    if c == '등' then []
    else if leadsWith ("관련".data) (c :: cs) then []
    else c :: takeBeforeMark cs

/-- The no-constraint test of `parseMajors`. -/
def noConstraint (l : List Char) : Bool :=
  containsSub ("무관".data) l || containsSub ("모든 계열".data) l ||
    containsSub ("모든 학과".data) l || containsSub ("모든과".data) l

/-- Per-piece cleanup of `parseMajors`: truncate at 등/관련, delete
parentheses characters, trim. -/
def cleanPiece (l : List Char) : List Char :=
  trimChars ((takeBeforeMark l).filter (fun c => !(c == '(' || c == ')')))

/-- Piece filter of the src/lambda.ts variant (its denylist is the single
string "학과, 학부, 과"). -/
def keepPieceL (l : List Char) : Bool :=
  !l.isEmpty && !(["학과, 학부, 과"].contains (String.mk l)) &&
    String.mk l != "+ 창업"

/-- Piece filter of the modular variant (denylist "계열" and
"학과, 학부, 과"). -/
def keepPieceM (l : List Char) : Bool :=
  !l.isEmpty && !(["계열", "학과, 학부, 과"].contains (String.mk l)) &&
    String.mk l != "+ 창업"

/-- `parseMajors` as implemented in src/lambda.ts: bullets are replaced by
the empty string and the separator alternation has no whitespace-run
case. -/
def parseMajors (selection : String) : List String :=
  if noConstraint selection.data then ["무관"]
  else
    let sp := extractSW selection.data
    let rest := stripBullets [] sp.2
    ((splitBySep sepAtL rest).map cleanPiece).filter keepPieceL
      |>.map String.mk |> (sp.1 ++ ·)

/-- `parseMajors` as implemented in the modular variant
src/unnamed/part_001: bullets are replaced by a space and the separator
alternation additionally splits on whitespace runs. -/
def parseMajorsM (selection : String) : List String :=
  if noConstraint selection.data then ["무관"]
  else
    let sp := extractSW selection.data
    let rest := stripBullets [' '] sp.2
    ((splitBySep sepAtM rest).map cleanPiece).filter keepPieceM
      |>.map String.mk |> (sp.1 ++ ·)

/-! ### Date normalizer (`standardizeDates`) -/

/-- A JavaScript object value as far as `standardizeDates` is concerned:
a string, or anything else (opaque, represented by an integer tag). -/
inductive JVal where
  | str : String → JVal
  | other : Int → JVal
deriving DecidableEq, Repr

/-- One global-replace step of `value.replace(/\s*\.\s*/g, ".")`:
whitespace around every dot is collapsed into the bare dot. -/
def collapseDotsGo : Nat → List Char → List Char
  | 0, l => l
  | _ + 1, [] => []
  | fuel + 1, c :: cs =>
    if c == '.' then '.' :: collapseDotsGo fuel (cs.dropWhile isWs)
    else if isWs c then
      match cs.dropWhile isWs with
      | d :: rest =>
        if d == '.' then '.' :: collapseDotsGo fuel (rest.dropWhile isWs)
        else c :: collapseDotsGo fuel cs
      | [] => c :: collapseDotsGo fuel cs
    else c :: collapseDotsGo fuel cs

/-- `value.replace(/\s*\.\s*/g, ".")`. -/
def collapseDots (l : List Char) : List Char :=
  collapseDotsGo (l.length + 1) l

/-- Length of the whitespace run at the head of `l`. -/
def countWs (l : List Char) : Nat :=
  (l.takeWhile isWs).length

/-- Anchored match of `\s*\.\s*`: consumed length, or `none`. -/
def matchSepN (l : List Char) : Option Nat :=
  let w := countWs l
  match l.drop w with
  | c :: r2 => if c == '.' then some (w + 1 + countWs r2) else none
  | [] => none

/-- The first two characters exist and are digits. -/
def twoDigitsAt (l : List Char) : Bool :=
  match l with
  | a :: b :: _ => a.isDigit && b.isDigit
  | _ => false

/-- Anchored match of `\s*\.\s*\d{2}`: consumed length, or `none`. -/
def matchTailN (l : List Char) : Option Nat :=
  match matchSepN l with
  | some n1 => if twoDigitsAt (l.drop n1) then some (n1 + 2) else none
  | none => none

/-- The first `k` characters exist and are digits. -/
def digitsPre (k : Nat) (l : List Char) : Bool :=
  (l.take k).length == k && (l.take k).all Char.isDigit

/-- Anchored match of `\d{k}\s*\.\s*\d{2}\s*\.\s*\d{2}` (one
backtracking branch of the greedy `\d{2,4}`). -/
def matchFullFromN (k : Nat) (l : List Char) : Option Nat :=
  if digitsPre k l then
    match matchTailN (l.drop k) with
    | some n1 =>
      match matchTailN (l.drop (k + n1)) with
      | some n2 => some (k + n1 + n2)
      | none => none
    | none => none
  else none

/-- Consumed length of the optional tilde `~?`. -/
def tildeCount (l : List Char) : Nat :=
  match l with
  | c :: _ => if c == '~' then 1 else 0
  | [] => 0

/-- Anchored match of the first date alternative
`~?\d{2,4}\s*\.\s*\d{2}\s*\.\s*\d{2}`, greedy in the year width. -/
def matchAlt1 (l : List Char) : Option Nat :=
  let t := tildeCount l
  let l1 := l.drop t
  match matchFullFromN 4 l1 <|> matchFullFromN 3 l1 <|> matchFullFromN 2 l1 with
  | some n => some (t + n)
  | none => none

/-- Anchored match of the second date alternative
`~?\d{2}\s*\.\s*\d{2}`. -/
def matchAlt2 (l : List Char) : Option Nat :=
  let t := tildeCount l
  let l1 := l.drop t
  if digitsPre 2 l1 then
    match matchTailN (l1.drop 2) with
    | some n1 => some (t + 2 + n1)
    | none => none
  else none

/-- Anchored match of the full `dateLikePattern` alternation. -/
def matchDateAt (l : List Char) : Option Nat :=
  matchAlt1 l <|> matchAlt2 l

/-- The global scan `value.match(dateLikePattern)`: all matches in
left-to-right order, the scan resuming after each match. -/
def findDateGo : Nat → List Char → List (List Char)
  | 0, _ => []
  | _ + 1, [] => []
  | fuel + 1, c :: cs =>
    match matchDateAt (c :: cs) with
    | some n => (c :: cs).take n :: findDateGo fuel ((c :: cs).drop n)
    | none => findDateGo fuel cs

/-- `value.match(dateLikePattern)` (`[]` models a `null` result). -/
def findDateMatches (l : List Char) : List (List Char) :=
  findDateGo (l.length + 1) l

/-- Anchored-both-ends test of
`^\d{2,4}\s*\.\s*\d{2}\s*\.\s*\d{2}$` (`fullDatePattern`). -/
def testFull (l : List Char) : Bool :=
  [4, 3, 2].any (fun k => matchFullFromN k l == some l.length)

/-- `tildeDatePattern.test`. -/
def testTilde (l : List Char) : Bool :=
  match l with
  | c :: r => c == '~' && testFull r
  | [] => false

/-- `partialDatePattern.test` (`^\d{2}\s*\.\s*\d{2}$`). -/
def testPartial (l : List Char) : Bool :=
  digitsPre 2 l &&
    (match matchTailN (l.drop 2) with
     | some n1 => 2 + n1 == l.length
     | none => false)

/-- JavaScript `split(".")` on character lists. -/
def splitDot : List Char → List (List Char)
  | [] => [[]]
  | c :: cs =>
    if c == '.' then [] :: splitDot cs
    else
      match splitDot cs with
      | h :: t => (c :: h) :: t
      | [] => [[c]]

/-- Component access `components[i]` of the split date. -/
def comp (ls : List (List Char)) (i : Nat) : List Char :=
  ls.getD i []

/-- `components[0].length === 2 ? `20${components[0]}` :
components[0]`. -/
def expandYear (c0 : List Char) : List Char :=
  if c0.length == 2 then '2' :: '0' :: c0 else c0

/-- One `matches.forEach` step of `standardizeDates`, threading the
evolving value and the `lastKnownYear` scan state. -/
def dateStep (st : List Char × Option (List Char)) (m : List Char) :
    List Char × Option (List Char) :=
  let nm := trimChars (collapseDots m)
  if testTilde nm then
    let comps := splitDot (nm.drop 1)
    let yr := expandYear (comp comps 0)
    (replaceFirst st.1 m
      ('~' :: (yr ++ '-' :: (comp comps 1 ++ '-' :: comp comps 2))), some yr)
  else if testFull nm then
    let comps := splitDot nm
    let yr := expandYear (comp comps 0)
    (replaceFirst st.1 m
      (yr ++ '-' :: (comp comps 1 ++ '-' :: comp comps 2)), some yr)
  else
    match st.2 with
    | some yr =>
      if testPartial nm then
        let comps := splitDot nm
        (replaceFirst st.1 m
          (yr ++ '-' :: (comp comps 0 ++ '-' :: comp comps 1)), some yr)
      else (replaceFirst st.1 m nm, some yr)
    | none => (replaceFirst st.1 m nm, none)

/-- Pass 2 of `standardizeDates` on one string value: rewrite every date
match, threading `lastKnownYear`. -/
def processValue (y : Option (List Char)) (s : List Char) :
    List Char × Option (List Char) :=
  (findDateMatches s).foldl dateStep (s, y)

/-- Pass 1 of `standardizeDates` on one value. -/
def pass1Val : JVal → JVal
  | JVal.str s => JVal.str (String.mk (trimChars (collapseDots s.data)))
  | v => v

/-- Pass 2 of `standardizeDates` over the entries in iteration order,
threading `lastKnownYear` across fields. -/
def stdGo : Option (List Char) → List (String × JVal) → List (String × JVal)
  | _, [] => []
  | y, (k, JVal.str s) :: rest =>
    let p := processValue y s.data
    (k, JVal.str (String.mk p.1)) :: stdGo p.2 rest
  | y, (k, v) :: rest => (k, v) :: stdGo y rest

/-- `standardizeDates` of src/lambda.ts, on an insertion-ordered map. -/
def standardizeDates (m : List (String × JVal)) : List (String × JVal) :=
  stdGo none (m.map (fun e => (e.1, pass1Val e.2)))

/-! ### Section extractors -/

/-- A qualifications value: the major section is routed through
`parseMajors` and becomes a list, every other section stays a string. -/
inductive QVal where
  | s : String → QVal
  | ms : List String → QVal
deriving DecidableEq, Repr

/-- Anchored match of a section marker: the literal pieces joined by
`\s*`, then `\s*`, then the colon.  Returns the text right after the
colon (whitespace after the colon not yet consumed). -/
def matchMarker : List (List Char) → List Char → Option (List Char)
  | [], l =>
    match l with
    | c :: r => if c == ':' then some r else none
    | [] => none
  | p :: ps, l =>
    if leadsWith p l then matchMarker ps ((l.drop p.length).dropWhile isWs)
    else none

/-- The lazy capture `([\s\S]*?)` bounded by the lookahead
`(?=stop|$)`: everything before the first occurrence of `stop`, or the
whole text when `stop` never occurs. -/
def captureUntil (stop : List Char) : List Char → List Char
  | [] => []
  | c :: cs =>
    if leadsWith stop (c :: cs) then [] else c :: captureUntil stop cs

/-- Leftmost match of a lazy-capture section pattern
`marker\s*:\s*([\s\S]*?)(?=stop|$)`; `stop = none` models a bare `(?=$)`
lookahead.  Returns the raw capture (before trimming). -/
def scanSection (pieces : List (List Char)) (stop : Option (List Char)) :
    List Char → Option (List Char)
  | [] => none
  | c :: cs =>
    match matchMarker pieces (c :: cs) with
    | some rest =>
      match stop with
      | none => some (rest.dropWhile isWs)
      | some st => some (captureUntil st (rest.dropWhile isWs))
    | none => scanSection pieces stop cs

/-- The greedy class capture `([class]+)` after `marker\s*:\s*`, with the
JavaScript backtracking between the greedy `\s*` and the one-or-more
class: if the first non-whitespace character qualifies the capture is the
maximal class run from there; otherwise the last whitespace character
that qualifies is captured alone; otherwise the pattern fails here. -/
def classCapture (p : Char → Bool) (r : List Char) : Option (List Char) :=
  let w := r.takeWhile isWs
  let t := r.drop w.length
  match t with
  | c :: _ =>
    if p c then some (t.takeWhile p)
    else
      match w.reverse.find? p with
      | some d => some [d]
      | none => none
  | [] =>
    match w.reverse.find? p with
    | some d => some [d]
    | none => none

/-- Leftmost match of a greedy-class section pattern
`marker\s*:\s*([class]+)`; a position where the marker matches but the
capture fails is skipped and the scan continues. -/
def scanSectionB (pieces : List (List Char)) (p : Char → Bool) :
    List Char → Option (List Char)
  | [] => none
  | c :: cs =>
    match matchMarker pieces (c :: cs) with
    | some rest =>
      match classCapture p rest with
      | some cap => some cap
      | none => scanSectionB pieces p cs
    | none => scanSectionB pieces p cs

/-- One optional entry of `parseQualifications`: present exactly when the
pattern matched with a non-empty capture; the capture is trimmed, and the
major section is routed through `parseMajors`. -/
def qualEntry (input : List Char) (key : String) (pieces : List String)
    (stop : Option String) : List (String × QVal) :=
  match scanSection (pieces.map String.data) (stop.map String.data) input with
  | some cap =>
    if cap.isEmpty then []
    else if key == "major" then
      [(key, QVal.ms (parseMajors (String.mk (trimChars cap))))]
    else [(key, QVal.s (String.mk (trimChars cap)))]
  | none => []

/-- `parseQualifications` of src/lambda.ts. -/
def parseQualifications (input : String) : List (String × QVal) :=
  qualEntry input.data ("major") ["전공"] (some ("*인원")) ++
  qualEntry input.data ("recruitCount") ["인원"] (some ("*학년")) ++
  qualEntry input.data ("grade") ["학년"] (some ("*학점/평점")) ++
  qualEntry input.data ("credit") ["학점/평점"] (some ("*요구 역량")) ++
  qualEntry input.data ("competence") ["요구", "역량"] (some ("*기타사항")) ++
  qualEntry input.data ("etc") ["기타사항"] none

/-- One optional entry of `parseInternshipDetails`. -/
def detEntry (input : List Char) (key : String) (pieces : List String)
    (stop : Option String) : List (String × String) :=
  match scanSection (pieces.map String.data) (stop.map String.data) input with
  | some cap =>
    if cap.isEmpty then [] else [(key, String.mk (trimChars cap))]
  | none => []

/-- `parseInternshipDetails` of src/lambda.ts. -/
def parseInternshipDetails (details : String) : List (String × String) :=
  detEntry details.data ("jobTitle") ["*직무명"] (some ("\n*교육목표")) ++
  detEntry details.data ("goals") ["*교육목표"] (some ("\n*직무 개요")) ++
  detEntry details.data ("jobOverview") ["*직무", "개요"]
    (some ("\n*운영/ 지도 계획")) ++
  detEntry details.data ("operationGuidance") ["*운영/ 지도 계획"]
    (some ("\n*목표 성과물")) ++
  detEntry details.data ("targetOutcomes") ["*목표", "성과물"] none

/-- One optional entry of `extractInterviewDetails`. -/
def ivEntry (input : List Char) (key : String) (pieces : List String)
    (p : Char → Bool) : List (String × String) :=
  match scanSectionB (pieces.map String.data) p input with
  | some cap =>
    if cap.isEmpty then [] else [(key, String.mk (trimChars cap))]
  | none => []

/-- `extractInterviewDetails` of src/lambda.ts: asterisks are deleted
first, then four greedy-class section patterns are applied.  The bracket
expressions `[^서류합격발표]` and `[^면접일]` are character classes, so
they exclude the individual characters. -/
def extractInterviewDetails (input : String) : List (String × String) :=
  let ci := input.data.filter (fun c => c != '*')
  ivEntry ci ("interviewType") ["면접유형"] (fun c => c != '\n') ++
  ivEntry ci ("applicationSubmissionPeriod") ["서류", "접수", "기간"]
    (fun c => !(['서', '류', '합', '격', '발', '표'].contains c)) ++
  ivEntry ci ("applicationResultsAnnouncement") ["서류", "합격", "발표"]
    (fun c => !(['면', '접', '일'].contains c)) ++
  ivEntry ci ("finalResultsAnnouncement") ["최종", "합격발표"]
    (fun c => c != '\n')

/-! ### Time parsers -/

/-- Anchored match of `\d{2}` followed by the literal `suf`; returns the
captured digits and the rest. -/
def try2Lit (suf : List Char) (l : List Char) :
    Option (List Char × List Char) :=
  match l with
  | a :: b :: r =>
    if a.isDigit && b.isDigit && leadsWith suf r then
      some ([a, b], r.drop suf.length)
    else none
  | _ => none

/-- Anchored match of `\d{1}` followed by the literal `suf`. -/
def try1Lit (suf : List Char) (l : List Char) :
    Option (List Char × List Char) :=
  match l with
  | a :: r =>
    if a.isDigit && leadsWith suf r then some ([a], r.drop suf.length)
    else none
  | _ => none

/-- Anchored match of the greedy `(\d{1,2})` followed by the literal
`suf`: two digits preferred, one digit as the backtracking fallback. -/
def digitsLit (suf : List Char) (l : List Char) :
    Option (List Char × List Char) :=
  try2Lit suf l <|> try1Lit suf l

/-- Generic leftmost regex search: try the anchored matcher at every
position, including the end-of-string position. -/
def scanOpt {α : Type} (f : List Char → Option α) : List Char → Option α
  | [] => f []
  | c :: cs => f (c :: cs) <|> scanOpt f cs

/-- Anchored match of `(\d{1,2})시\s*(\d{1,2})분` (the `convertToISO8601`
pattern). -/
def matchTime (l : List Char) : Option (List Char × List Char) := do
  let (h, r1) ← digitsLit (['시']) l
  let (m, _) ← digitsLit (['분']) (r1.dropWhile isWs)
  some (h, m)

/-- `convertToISO8601` of src/lambda.ts: fail-fast on inputs without an
hour-minute phrase, modelled with `Except`. -/
def convertToISO8601 (time : String) : Except String String :=
  match scanOpt matchTime time.data with
  | some (h, m) => Except.ok (String.mk (pad2 h ++ ':' :: pad2 m))
  | none => Except.error ("Invalid time format: " ++ time)

/-- JavaScript `split` on a single separator character. -/
def splitCharL (sep : Char) : List Char → List (List Char)
  | [] => [[]]
  | c :: cs =>
    if c == sep then [] :: splitCharL sep cs
    else
      match splitCharL sep cs with
      | h :: t => (c :: h) :: t
      | [] => [[c]]

/-- `handleWorkingHours` of src/lambda.ts: split on "~", trim, convert
both endpoints.  With no "~" in the input the destructured end is
`undefined` and calling `match` on it raises a `TypeError`; both raised
errors are modelled by the `Except` error branch, in evaluation order. -/
def handleWorkingHours (value : String) : Except String (String × String) :=
  match (splitCharL ('~') value.data).map trimChars with
  | [] => Except.error ("TypeError")
  | [start] =>
    match convertToISO8601 (String.mk start) with
    | Except.ok _ => Except.error ("TypeError")
    | Except.error e => Except.error e
  | start :: rest1 :: _ => do
    let s ← convertToISO8601 (String.mk start)
    let t ← convertToISO8601 (String.mk rest1)
    pure (s, t)

/-- Anchored match of `(\d{1,2})시까지`. -/
def matchT1 (l : List Char) : Option (List Char) :=
  (digitsLit ("시까지".data) l).map Prod.fst

/-- Anchored match of `(\d{1,2})시\s*(\d{1,2})분까지`. -/
def matchT2 (l : List Char) : Option (List Char × List Char) := do
  let (h, r1) ← digitsLit (['시']) l
  let (m, _) ← digitsLit ("분까지".data) (r1.dropWhile isWs)
  some (h, m)

/-- Anchored match of `(\d{1,2}):(\d{1,2})까지`. -/
def matchT3 (l : List Char) : Option (List Char × List Char) := do
  let (h, r1) ← digitsLit ([':']) l
  let (m, _) ← digitsLit ("까지".data) r1
  some (h, m)

/-- `normalizeDeadlineTime` of src/lambda.ts: the three patterns are
tried in order and the sentinel "24:00" is returned for empty input or
when none matches. -/
def normalizeDeadlineTime (time : String) : String :=
  if time.isEmpty then "24:00"
  else
    match scanOpt matchT1 time.data with
    | some h => String.mk (pad2 h ++ (":00".data))
    | none =>
      match scanOpt matchT2 time.data with
      | some (h, m) => String.mk (pad2 h ++ ':' :: pad2 m)
      | none =>
        match scanOpt matchT3 time.data with
        | some (h, m) => String.mk (pad2 h ++ ':' :: pad2 m)
        | none => "24:00"

/-- `parseStatus` of src/lambda.ts. -/
def parseStatus (status : String) : Bool :=
  String.mk (trimChars status.data) != "접수마감"

/-! ### Shared lemmas about the string helpers -/

theorem leadsWith_refl (l : List Char) : leadsWith l l = true := by
  induction l with
  | nil => rfl
  | cons c cs ih => simp [leadsWith, ih]

theorem leadsWith_iff_append (p l : List Char) :
    leadsWith p l = true ↔ ∃ r, l = p ++ r := by
  induction p generalizing l with
  | nil => exact ⟨fun _ => ⟨l, rfl⟩, fun _ => rfl⟩
  | cons x xs ih =>
    cases l with
    | nil =>
      constructor
      · intro h; exact absurd h (by simp [leadsWith])
      · rintro ⟨r, hr⟩; exact absurd hr (by simp)
    | cons c cs =>
      constructor
      · intro h
        simp only [leadsWith, Bool.and_eq_true, beq_iff_eq] at h
        obtain ⟨he, hlw⟩ := h
        obtain ⟨r, hr⟩ := (ih cs).mp hlw
        exact ⟨r, by simp [he, hr]⟩
      · rintro ⟨r, hr⟩
        simp only [List.cons_append, List.cons.injEq] at hr
        simp [leadsWith, hr.1, (ih cs).mpr ⟨r, hr.2⟩]

theorem replaceFirst_self (l repl : List Char) :
    replaceFirst l l repl = repl := by
  cases l with
  | nil => simp [replaceFirst, List.isEmpty]
  | cons c cs => simp [replaceFirst, leadsWith_refl]

theorem dropWhile_head_false (p : Char → Bool) (l : List Char) (c : Char)
    (r : List Char) (h : l.dropWhile p = c :: r) : p c = false := by
  induction l with
  | nil => simp [List.dropWhile] at h
  | cons d ds ih =>
    rw [List.dropWhile_cons] at h
    by_cases hp : p d
    · simp [hp] at h; exact ih h
    · simp [hp] at h
      rw [← h.1]
      exact Bool.eq_false_iff.mpr hp

theorem dropWhile_append_all (p : Char → Bool) (w r : List Char)
    (hw : ∀ c ∈ w, p c = true) : (w ++ r).dropWhile p = r.dropWhile p := by
  induction w with
  | nil => rfl
  | cons c cs ih =>
    simp [List.dropWhile_cons, hw c (by simp)]
    exact ih (fun d hd => hw d (by simp [hd]))

theorem dropWhile_cons_false (p : Char → Bool) (c : Char) (r : List Char)
    (hc : p c = false) : (c :: r).dropWhile p = c :: r := by
  simp [List.dropWhile_cons, hc]

theorem trimChars_ne_nil (c : Char) (r : List Char) (hc : isWs c = false) :
    trimChars (c :: r) ≠ [] := by
  unfold trimChars
  rw [dropWhile_cons_false isWs c r hc]
  intro h
  rw [List.reverse_eq_nil_iff, List.dropWhile_eq_nil_iff] at h
  have := h c (by simp)
  rw [hc] at this
  exact Bool.false_ne_true this

theorem trimChars_sandwich (w1 w2 cs : List Char) (c d : Char)
    (h1 : ∀ x ∈ w1, isWs x = true) (h2 : ∀ x ∈ w2, isWs x = true)
    (hc : isWs c = false) (hd : isWs d = false)
    (hlast : (c :: cs).getLast? = some d) :
    trimChars (w1 ++ (c :: cs) ++ w2) = c :: cs := by
  have hrev : ∃ es, (c :: cs).reverse = d :: es := by
    have h0 : (c :: cs).reverse.head? = some d := by
      rw [List.head?_reverse]; exact hlast
    cases hr : (c :: cs).reverse with
    | nil => rw [hr] at h0; simp at h0
    | cons e es =>
      rw [hr] at h0; simp at h0; exact ⟨es, by rw [h0]⟩
  obtain ⟨es, hes⟩ := hrev
  unfold trimChars
  rw [List.append_assoc, dropWhile_append_all isWs w1 _ h1,
    show (c :: cs) ++ w2 = c :: (cs ++ w2) from rfl,
    dropWhile_cons_false _ _ _ hc,
    show c :: (cs ++ w2) = (c :: cs) ++ w2 from rfl, List.reverse_append,
    dropWhile_append_all isWs w2.reverse _ (fun x hx => h2 x (by simpa using hx)),
    hes, dropWhile_cons_false _ _ _ hd, ← hes, List.reverse_reverse]

theorem mem_addSet (x y : String) (l : List String) :
    x ∈ addSet l y ↔ x ∈ l ∨ x = y := by
  by_cases h : y ∈ l <;> simp [addSet, h]
  exact fun e => e ▸ h

theorem mem_addAllSet (x : String) (xs l : List String) :
    x ∈ addAllSet l xs ↔ x ∈ l ∨ x ∈ xs := by
  induction xs generalizing l with
  | nil => simp [addAllSet]
  | cons y ys ih =>
    show x ∈ addAllSet (addSet l y) ys ↔ _
    rw [ih, mem_addSet]
    simp only [List.mem_cons]
    tauto

theorem string_mk_inj (l1 l2 : List Char) :
    String.mk l1 = String.mk l2 ↔ l1 = l2 :=
  ⟨fun h => congrArg String.data h, fun h => congrArg String.mk h⟩

/-! ### Claim C10: status parser semantics -/

/-- Claim C10: `parseStatus` returns `false` exactly when the input with
leading and trailing whitespace removed equals "접수마감" — equivalently,
when the input is that literal surrounded by (possibly empty) whitespace
— and returns `true` for every other string. -/
theorem claim_C10 (s : String) :
    parseStatus s = false ↔
      ∃ w1 w2 : List Char, (∀ c ∈ w1, isWs c = true) ∧
        (∀ c ∈ w2, isWs c = true) ∧
        s.data = w1 ++ ("접수마감".data) ++ w2 := by
  have hbase : parseStatus s = false ↔ trimChars s.data = ("접수마감".data) := by
    unfold parseStatus
    rw [bne_eq_false_iff_eq, string_mk_inj _ (("접수마감").data)]
  rw [hbase]
  constructor
  · intro h
    refine ⟨(s.data.takeWhile isWs),
      ((s.data.dropWhile isWs).reverse.takeWhile isWs).reverse, ?_, ?_, ?_⟩
    · intro c hc; exact List.mem_takeWhile_imp hc
    · intro c hc
      exact List.mem_takeWhile_imp (by simpa using hc)
    · have hm2 : s.data.dropWhile isWs = trimChars s.data ++
          ((s.data.dropWhile isWs).reverse.takeWhile isWs).reverse := by
        conv_lhs =>
          rw [← List.reverse_reverse (s.data.dropWhile isWs),
            ← List.takeWhile_append_dropWhile (p := isWs)
              (l := (s.data.dropWhile isWs).reverse)]
        rw [List.reverse_append]
        rfl
      conv_lhs =>
        rw [← List.takeWhile_append_dropWhile (p := isWs) (l := s.data), hm2, h]
      rw [List.append_assoc]
  · rintro ⟨w1, w2, h1, h2, hs⟩
    rw [hs]
    exact trimChars_sandwich w1 w2 (['수', '마', '감']) ('접') ('감') h1 h2
      (by decide) (by decide) (by decide)

/-! ### Claim C8: deadline-time parser -/

/-- Claim C8: `normalizeDeadlineTime` maps "12시까지" to "12:00" and
"12시 30분까지" to "12:30", and returns the sentinel "24:00" for the empty
string and for every input on which all three pattern searches fail; being
a total function of its input, it never throws. -/
theorem claim_C8 :
    normalizeDeadlineTime ("12시까지") = "12:00" ∧
    normalizeDeadlineTime ("12시 30분까지") = "12:30" ∧
    normalizeDeadlineTime ("") = "24:00" ∧
    ∀ t : String, scanOpt matchT1 t.data = none →
      scanOpt matchT2 t.data = none → scanOpt matchT3 t.data = none →
      normalizeDeadlineTime t = "24:00" := by
  refine ⟨by decide, by decide, by decide, ?_⟩
  intro t h1 h2 h3
  unfold normalizeDeadlineTime
  by_cases he : t.isEmpty
  · simp [he]
  · simp [he, h1, h2, h3]

/-- Witness for claim C8 at the unrecognized input "마감 전". -/
theorem claim_C8_witness : normalizeDeadlineTime ("마감 전") = "24:00" :=
  claim_C8.2.2.2 ("마감 전") (by decide) (by decide) (by decide)

/-! ### Claim C2: the 무관 sentinel short-circuits the matcher -/

theorem frmGo_sentinel (flat : List (List Char)) (acc : List String)
    (h : ("무관".data) ∈ flat) : frmGo flat acc = ["무관"] := by
  induction flat generalizing acc with
  | nil => simp at h
  | cons i rest ih =>
    by_cases hi : i = ("무관".data)
    · subst hi
      simp [frmGo]
    · have : ("무관".data) ∈ rest := by
        rcases List.mem_cons.mp h with h1 | h2
        · exact absurd h1.symm hi
        · exact h2
      simp [frmGo, hi]
      exact ih _ this

/-- Claim C2: whenever some atomic input (after the pre-pass splitting,
morpheme stripping, trimming and case folding) equals the sentinel
"무관", `findRelatedMajor` returns exactly `["무관"]`, discarding all
partial results of earlier atomic inputs and ignoring all later ones. -/
theorem claim_C2 (inputs : List String) (h : ("무관".data) ∈ flatInputs inputs) :
    findRelatedMajor inputs = ["무관"] :=
  frmGo_sentinel _ _ h

/-- Witness for claim C2: the sentinel appears in the middle of a token
list and wipes out the earlier token's contribution. -/
theorem claim_C2_witness : findRelatedMajor ["수학, 무관", "영문"] = ["무관"] :=
  claim_C2 ["수학, 무관", "영문"] (by decide)

/-! ### Claim C6: token-normalizer splitting (two in-repo variants) -/

/-- Claim C6 counterexample: the `parseMajors` of src/lambda.ts does not
split on runs of whitespace — two major names separated only by spaces
stay one token — refuting the claim for the variant its source cites. -/
theorem claim_C6_counterexample :
    parseMajors ("수학 물리") = ["수학 물리"] ∧
    parseMajors ("수학 물리") ≠ ["수학", "물리"] := by
  refine ⟨by decide, by decide⟩

/-- Claim C6 amended: the modular variant of `parseMajors`
(src/unnamed/part_001) splits on comma, slash, " 및 ", the middle dot,
newlines and runs of whitespace, as the claim states; the src/lambda.ts
variant splits on all of these except whitespace runs, so space-separated
names remain a single token there. -/
theorem claim_C6_amended :
    parseMajorsM ("수학 물리") = ["수학", "물리"] ∧
    parseMajors ("수학 물리") = ["수학 물리"] ∧
    parseMajorsM ("수학,물리/생물\n국문 및 영문") =
      ["수학", "물리", "생물", "국문", "영문"] ∧
    parseMajors ("수학,물리/생물\n국문 및 영문") =
      ["수학", "물리", "생물", "국문", "영문"] := by
  refine ⟨by decide, by decide, by decide, by decide⟩

/-! ### Claim C3: date-normalizer context propagation -/

/-- Claim C3: with key order a,b the partial date in `a` stays unrewritten
and `b` is canonicalized; with key order b,a the year learned from `b`
rewrites the partial date in `a`; and in general a lone partial-date value
is rewritten exactly when the scan state already carries a year, the year
state being whatever the call so far computed (never anything from an
earlier call: `standardizeDates` starts every call with an empty year). -/
theorem claim_C3 :
    standardizeDates [("a", JVal.str "01.02"), ("b", JVal.str "2023.03.04")] =
      [("a", JVal.str "01.02"), ("b", JVal.str "2023-03-04")] ∧
    standardizeDates [("b", JVal.str "2023.03.04"), ("a", JVal.str "01.02")] =
      [("b", JVal.str "2023-03-04"), ("a", JVal.str "2023-01-02")] ∧
    processValue none (("01.02").data) = ((("01.02").data), none) ∧
    ∀ yr : List Char, processValue (some yr) (("01.02").data) =
      (yr ++ (("-01-02").data), some yr) := by
  refine ⟨by decide, by decide, by decide, ?_⟩
  intro yr
  have key : dateStep ((("01.02").data), some yr) (("01.02").data) =
      (replaceFirst (("01.02").data) (("01.02").data)
        (yr ++ (("-01-02").data)), some yr) := rfl
  calc processValue (some yr) (("01.02").data)
      = dateStep ((("01.02").data), some yr) (("01.02").data) := rfl
    _ = (replaceFirst (("01.02").data) (("01.02").data)
          (yr ++ (("-01-02").data)), some yr) := key
    _ = (yr ++ (("-01-02").data), some yr) := by rw [replaceFirst_self]

/-- Witness for claim C3's general clause at the year "2077". -/
theorem claim_C3_witness :
    processValue (some (("2077").data)) (("01.02").data) =
      ((("2077-01-02").data), some (("2077").data)) := by
  rw [claim_C3.2.2.2 (("2077").data)]
  decide

/-! ### Claim C9: frame property of the date normalizer -/

theorem stdGo_keys (l : List (String × JVal)) (y : Option (List Char))
    (i : Nat) : ((stdGo y l)[i]?).map Prod.fst = (l[i]?).map Prod.fst := by
  induction l generalizing y i with
  | nil => rfl
  | cons e rest ih =>
    obtain ⟨k, v⟩ := e
    cases v with
    | str s =>
      cases i with
      | zero => simp [stdGo]
      | succ j => simpa [stdGo] using ih _ j
    | other n =>
      cases i with
      | zero => simp [stdGo]
      | succ j => simpa [stdGo] using ih _ j

theorem stdGo_other (l : List (String × JVal)) (y : Option (List Char))
    (i : Nat) (k : String) (x : Int) (h : l[i]? = some (k, JVal.other x)) :
    (stdGo y l)[i]? = some (k, JVal.other x) := by
  induction l generalizing y i with
  | nil => simp at h
  | cons e rest ih =>
    obtain ⟨k', v⟩ := e
    cases v with
    | str s =>
      cases i with
      | zero => simp at h
      | succ j =>
        simp only [List.getElem?_cons_succ] at h
        simpa [stdGo] using ih _ j h
    | other n =>
      cases i with
      | zero =>
        simp only [List.getElem?_cons_zero] at h
        simpa [stdGo] using h
      | succ j =>
        simp only [List.getElem?_cons_succ] at h
        simpa [stdGo] using ih _ j h

/-- Claim C9: `standardizeDates` preserves the key sequence of its input
(hence its key set), and every entry whose value is not a string is
returned unchanged — only string values can differ. -/
theorem claim_C9 (m : List (String × JVal)) (i : Nat) :
    ((standardizeDates m)[i]?).map Prod.fst = (m[i]?).map Prod.fst ∧
    ∀ k x, m[i]? = some (k, JVal.other x) →
      (standardizeDates m)[i]? = some (k, JVal.other x) := by
  constructor
  · unfold standardizeDates
    rw [stdGo_keys]
    rw [List.getElem?_map, Option.map_map]
    rfl
  · intro k x h
    unfold standardizeDates
    apply stdGo_other
    rw [List.getElem?_map, h]
    rfl

/-- Witness for claim C9 on a one-entry map with a non-string value. -/
theorem claim_C9_witness :
    (standardizeDates [(("k"), JVal.other 7)])[0]? =
      some (("k"), JVal.other 7) :=
  (claim_C9 [(("k"), JVal.other 7)] 0).2 ("k") 7 (by rfl)

/-! ### Claim C4: the date normalizer is not idempotent -/

/-- Claim C4 counterexample: a first pass can mis-target the first-
occurrence string replacement and leave a live dotted full date in its
output, which a second pass then rewrites — so applying
`standardizeDates` to its own output does not always yield the same
output. -/
theorem claim_C4_counterexample :
    standardizeDates (standardizeDates
        [(("a"), JVal.str ("77.88.33.44 11.22.99.33.44"))]) ≠
      standardizeDates [(("a"), JVal.str ("77.88.33.44 11.22.99.33.44"))] := by
  decide

theorem collapseDotsGo_no_dot (fuel : Nat) (l : List Char)
    (h : ('.') ∉ l) : collapseDotsGo fuel l = l := by
  induction fuel generalizing l with
  | zero => rfl
  | succ n ih =>
    cases l with
    | nil => rfl
    | cons c cs =>
      have hc : ¬ (c == '.') = true := by
        simp only [beq_iff_eq]
        exact fun e => h (by simp [e])
      have hcs : ('.') ∉ cs := fun hm => h (by simp [hm])
      by_cases hw : isWs c
      · cases hd : cs.dropWhile isWs with
        | nil => simp [collapseDotsGo, hc, hw, hd, ih cs hcs]
        | cons d rest =>
          have hdm : d ∈ cs := (List.dropWhile_sublist isWs).subset
            (hd ▸ List.mem_cons_self d rest)
          have hdne : ¬ (d == '.') = true := by
            simp only [beq_iff_eq]
            exact fun e => hcs (e ▸ hdm)
          simp [collapseDotsGo, hc, hw, hd, hdne, ih cs hcs]
      · simp [collapseDotsGo, hc, hw, ih cs hcs]

theorem contains_false_not_mem (l : List Char) (c : Char)
    (h : l.contains c = false) : c ∉ l := by
  intro hm
  have h2 : l.contains c = true := List.elem_iff.mpr hm
  rw [h] at h2
  exact Bool.false_ne_true h2

theorem matchSepN_none (l : List Char) (h : ('.') ∉ l) :
    matchSepN l = none := by
  cases hd : l.drop (countWs l) with
  | nil => simp only [matchSepN]; rw [hd]
  | cons c r =>
    have hc : c ∈ l := List.drop_subset _ l (hd ▸ List.mem_cons_self c r)
    have hne : c ≠ ('.') := fun e => h (e ▸ hc)
    simp only [matchSepN]
    rw [hd]
    simp [hne]

theorem matchTailN_none (l : List Char) (h : ('.') ∉ l) :
    matchTailN l = none := by
  simp [matchTailN, matchSepN_none l h]

theorem matchFullFromN_none (k : Nat) (l : List Char) (h : ('.') ∉ l) :
    matchFullFromN k l = none := by
  have h1 : matchTailN (l.drop k) = none :=
    matchTailN_none _ (fun hm => h (List.drop_subset _ _ hm))
  simp [matchFullFromN, h1]

theorem matchDateAt_none (l : List Char) (h : ('.') ∉ l) :
    matchDateAt l = none := by
  have hsub : ('.') ∉ l.drop (tildeCount l) :=
    fun hm => h (List.drop_subset _ _ hm)
  have h2 : matchTailN (l.drop (tildeCount l + 2)) = none :=
    matchTailN_none _ (fun hm => h (List.drop_subset _ _ hm))
  simp [matchDateAt, matchAlt1, matchAlt2, matchFullFromN_none 4 _ hsub,
    matchFullFromN_none 3 _ hsub, matchFullFromN_none 2 _ hsub, h2,
    List.drop_drop]

theorem findDateGo_no_dot (fuel : Nat) (l : List Char) (h : ('.') ∉ l) :
    findDateGo fuel l = [] := by
  induction fuel generalizing l with
  | zero => rfl
  | succ n ih =>
    cases l with
    | nil => rfl
    | cons c cs =>
      have hcs : ('.') ∉ cs := fun hm => h (by simp [hm])
      simp [findDateGo, matchDateAt_none _ h, ih cs hcs]

theorem processValue_no_dot (y : Option (List Char)) (s : List Char)
    (h : ('.') ∉ s) : processValue y s = (s, y) := by
  simp [processValue, findDateMatches, findDateGo_no_dot _ _ h]

/-- Decidable side condition of the amended claim C4: a value is either a
non-string or a string with no dot and no leading or trailing
whitespace. -/
def noDotFixed : JVal → Bool
  | JVal.str s => !(s.data.contains ('.')) && (trimChars s.data == s.data)
  | JVal.other _ => true

theorem map_fixed {A : Type} (f : A → A) (l : List A)
    (h : ∀ e ∈ l, f e = e) : l.map f = l := by
  induction l with
  | nil => rfl
  | cons e rest ih =>
    simp [h e (by simp), ih (fun x hx => h x (by simp [hx]))]

theorem pass1Val_fixed (v : JVal) (h : noDotFixed v = true) :
    pass1Val v = v := by
  cases v with
  | other n => rfl
  | str s =>
    simp only [noDotFixed, Bool.and_eq_true, Bool.not_eq_true',
      beq_iff_eq] at h
    obtain ⟨h1, h2⟩ := h
    have hnd : ('.') ∉ s.data := contains_false_not_mem _ _ h1
    simp only [pass1Val]
    rw [collapseDots, collapseDotsGo_no_dot _ _ hnd, h2]

theorem stdGo_fixed (l : List (String × JVal)) (y : Option (List Char))
    (H : ∀ e ∈ l, noDotFixed e.2 = true) : stdGo y l = l := by
  induction l generalizing y with
  | nil => rfl
  | cons e rest ih =>
    obtain ⟨k, v⟩ := e
    have he := H (k, v) (by simp)
    have Hr : ∀ e ∈ rest, noDotFixed e.2 = true :=
      fun e hm => H e (by simp [hm])
    cases v with
    | other n => simp [stdGo, ih _ Hr]
    | str s =>
      simp only [noDotFixed, Bool.and_eq_true, Bool.not_eq_true',
        beq_iff_eq] at he
      have hnd : ('.') ∉ s.data := contains_false_not_mem _ _ he.1
      simp [stdGo, processValue_no_dot _ _ hnd, ih _ Hr]

/-- Claim C4 amended: `standardizeDates` is not idempotent in general
(see the counterexample), but any map whose string values contain no dot
and carry no leading or trailing whitespace — in particular one whose
values are already in canonical `YYYY-MM-DD` or `~YYYY-MM-DD` form — is a
fixed point, so a further pass leaves already-canonical values
unchanged. -/
theorem claim_C4_amended (m : List (String × JVal))
    (H : m.all (fun e => noDotFixed e.2) = true) :
    standardizeDates m = m := by
  rw [List.all_eq_true] at H
  unfold standardizeDates
  have hmap : m.map (fun e => (e.1, pass1Val e.2)) = m := by
    apply map_fixed
    intro e hm
    rw [pass1Val_fixed e.2 (H e hm)]
  rw [hmap]
  exact stdGo_fixed m none H

/-- Witness for claim C4 amended: a map with canonical date values and a
non-string value is a fixed point of `standardizeDates`. -/
theorem claim_C4_amended_witness :
    standardizeDates [(("a"), JVal.str ("2023-01-02")),
      (("b"), JVal.str ("~2024-11-30")), (("c"), JVal.other 3)] =
    [(("a"), JVal.str ("2023-01-02")),
      (("b"), JVal.str ("~2024-11-30")), (("c"), JVal.other 3)] :=
  claim_C4_amended _ (by decide)

/-! ### Claim C5: empty entries in the section extractors -/

/-- Claim C5 counterexample: `extractInterviewDetails` binds
"interviewType" to the empty string when only whitespace follows the
marker colon, because the greedy `[^\n]+` capture backtracks into the
whitespace eaten by `\s*`, so the claim fails for this extractor. -/
theorem claim_C5_counterexample :
    extractInterviewDetails ("면접유형 : ") = [(("interviewType"), "")] ∧
    (("interviewType"), "") ∈ extractInterviewDetails ("면접유형 : ") := by
  refine ⟨by decide, by decide⟩

theorem captureUntil_head (stop l : List Char) (c : Char) (r : List Char)
    (h : captureUntil stop l = c :: r) : ∃ t, l = c :: t := by
  cases l with
  | nil => simp [captureUntil] at h
  | cons d ds =>
    by_cases hp : leadsWith stop (d :: ds) = true
    · simp [captureUntil, hp] at h
    · simp [captureUntil, hp] at h
      exact ⟨ds, by rw [h.1]⟩

theorem scanSection_head_ws (pieces : List (List Char))
    (stop : Option (List Char)) (l cap : List Char) (c : Char)
    (r : List Char) (h : scanSection pieces stop l = some cap)
    (hc : cap = c :: r) : isWs c = false := by
  induction l with
  | nil => simp [scanSection] at h
  | cons x xs ih =>
    unfold scanSection at h
    cases hm : matchMarker pieces (x :: xs) with
    | none =>
      rw [hm] at h
      exact ih h
    | some rest =>
      rw [hm] at h
      cases stop with
      | none =>
        injection h with h2
        rw [hc] at h2
        exact dropWhile_head_false isWs rest c r h2
      | some st =>
        injection h with h2
        rw [hc] at h2
        obtain ⟨t, ht⟩ := captureUntil_head st _ c r h2
        exact dropWhile_head_false isWs rest c t ht

theorem mk_trim_ne_empty (cap : List Char) (c : Char) (r : List Char)
    (hc : cap = c :: r) (hw : isWs c = false) :
    String.mk (trimChars cap) ≠ "" := by
  intro h
  rw [show ("" : String) = String.mk [] from rfl, string_mk_inj] at h
  rw [hc] at h
  exact trimChars_ne_nil c r hw h

theorem qualEntry_no_empty (input : List Char) (key : String)
    (pieces : List String) (stop : Option String) (k v : String)
    (h : (k, QVal.s v) ∈ qualEntry input key pieces stop) : v ≠ "" := by
  unfold qualEntry at h
  cases hs : scanSection (pieces.map String.data) (stop.map String.data)
      input with
  | none => rw [hs] at h; simp at h
  | some cap =>
    rw [hs] at h
    by_cases he : cap.isEmpty
    · simp [he] at h
    · by_cases hk : (key == ("major")) = true
      · simp [he, hk] at h
      · simp [he, hk] at h
        cases hcap : cap with
        | nil => rw [hcap] at he; exact absurd rfl he
        | cons c r =>
          rw [h.2]
          exact mk_trim_ne_empty cap c r hcap
            (scanSection_head_ws _ _ _ _ _ _ hs hcap)

theorem detEntry_no_empty (input : List Char) (key : String)
    (pieces : List String) (stop : Option String) (k v : String)
    (h : (k, v) ∈ detEntry input key pieces stop) : v ≠ "" := by
  unfold detEntry at h
  cases hs : scanSection (pieces.map String.data) (stop.map String.data)
      input with
  | none => rw [hs] at h; simp at h
  | some cap =>
    rw [hs] at h
    by_cases he : cap.isEmpty
    · simp [he] at h
    · simp [he] at h
      cases hcap : cap with
      | nil => rw [hcap] at he; exact absurd rfl he
      | cons c r =>
        rw [h.2]
        exact mk_trim_ne_empty cap c r hcap
          (scanSection_head_ws _ _ _ _ _ _ hs hcap)

/-- Claim C5 amended: `parseQualifications` and `parseInternshipDetails`
never bind a key to an empty string — their lazy captures start at the
first non-whitespace character after the marker colon, so a matched
non-empty capture survives trimming — while `extractInterviewDetails` can
produce an empty-string entry (see the counterexample). -/
theorem claim_C5_amended (input : String) :
    (∀ k v, (k, QVal.s v) ∈ parseQualifications input → v ≠ "") ∧
    (∀ k v, (k, v) ∈ parseInternshipDetails input → v ≠ "") := by
  constructor
  · intro k v h
    unfold parseQualifications at h
    simp only [List.mem_append] at h
    rcases h with ((((h | h) | h) | h) | h) | h <;>
      exact qualEntry_no_empty _ _ _ _ _ _ h
  · intro k v h
    unfold parseInternshipDetails at h
    simp only [List.mem_append] at h
    rcases h with (((h | h) | h) | h) | h <;>
      exact detEntry_no_empty _ _ _ _ _ _ h

/-- Witness for claim C5 amended on concrete extractor outputs. -/
theorem claim_C5_amended_witness :
    (("2명") : String) ≠ "" ∧ (("개발") : String) ≠ "" :=
  ⟨(claim_C5_amended ("*전공 : 컴퓨터\n*인원 : 2명")).1 ("recruitCount")
      ("2명") (by decide),
    (claim_C5_amended ("*직무명 : 개발")).2 ("jobTitle") ("개발") (by decide)⟩

/-! ### Claim C1: fuzzy fallback boundary of the hierarchical matcher -/

set_option maxRecDepth 200000
set_option maxHeartbeats 4000000

theorem tierFold_flag {E : Type} (cond : E → Bool) (adds : E → List String)
    (entries : List E) (st : List String × Bool) :
    (tierFold cond adds entries st).2 = (st.2 || entries.any cond) := by
  induction entries generalizing st with
  | nil => simp [tierFold]
  | cons e es ih =>
    show (tierFold cond adds es
      (if cond e then (addAllSet st.1 (adds e), true) else st)).2 = _
    rw [ih]
    by_cases hc : cond e <;> simp [hc]

theorem tierFold_id {E : Type} (cond : E → Bool) (adds : E → List String)
    (entries : List E) (st : List String × Bool)
    (h : entries.any cond = false) : tierFold cond adds entries st = st := by
  induction entries generalizing st with
  | nil => rfl
  | cons e es ih =>
    simp only [List.any_cons, Bool.or_eq_false_iff] at h
    show tierFold cond adds es
      (if cond e then (addAllSet st.1 (adds e), true) else st) = st
    rw [show (if cond e then (addAllSet st.1 (adds e), true) else st) = st by
      simp [h.1]]
    exact ih st h.2

theorem tiers2to5_snd (input : List Char) (st : List String × Bool) :
    (tiers2to5 input st).2 =
      (st.2 || special.any (tier2Cond input) ||
        relatedColleges.any (tier3Cond input) ||
        colleges.any (tier4Cond input) ||
        collegeMajorsFlat.any (tier5Cond input)) := by
  unfold tiers2to5
  rw [tierFold_flag, tierFold_flag, tierFold_flag, tierFold_flag]

theorem tierMatch_false_anys (input : List Char)
    (h : tierMatch input = false) :
    special.any (tier2Cond input) = false ∧
    relatedColleges.any (tier3Cond input) = false ∧
    colleges.any (tier4Cond input) = false ∧
    collegeMajorsFlat.any (tier5Cond input) = false := by
  unfold tierMatch at h
  rw [tiers2to5_snd] at h
  simp only [Bool.or_eq_false_iff] at h
  exact ⟨h.1.1.1.2, h.1.1.2, h.1.2, h.2⟩

theorem tiers2to5_no_match (input : List Char) (acc : List String)
    (h : tierMatch input = false) :
    tiers2to5 input (acc, false) = (acc, false) := by
  obtain ⟨h2, h3, h4, h5⟩ := tierMatch_false_anys input h
  unfold tiers2to5
  rw [tierFold_id _ _ _ _ h2, tierFold_id _ _ _ _ h3,
    tierFold_id _ _ _ _ h4, tierFold_id _ _ _ _ h5]

/-- Invariant of the fuzzy corrector's fold after the candidate pool `S`
has been processed: an empty state means no candidate was within edit
distance 1, a filled state holds a candidate realizing the minimum
distance, which is at most 1. -/
def CorrGood (input : List Char) (S : List String) :
    Option (String × Nat) → Prop
  | none => ∀ m ∈ S, ¬ (lev input (majNorm m) ≤ 1)
  | some (b, bd) => b ∈ S ∧ bd = lev input (majNorm b) ∧ bd ≤ 1 ∧
      ∀ m ∈ S, bd ≤ lev input (majNorm m)

theorem corrGood_step (input : List Char) (S : List String)
    (st : Option (String × Nat)) (m : String) (h : CorrGood input S st) :
    CorrGood input (S ++ [m]) (corrStep input st m) := by
  cases st with
  | none =>
    simp only [CorrGood] at h
    unfold corrStep
    by_cases hd : lev input (majNorm m) ≤ 1
    · simp only [if_pos hd]
      refine ⟨by simp, rfl, hd, ?_⟩
      intro x hx
      rcases List.mem_append.mp hx with h1 | h1
      · have := h x h1; omega
      · simp at h1; subst h1; omega
    · simp only [if_neg hd]
      intro x hx
      rcases List.mem_append.mp hx with h1 | h1
      · exact h x h1
      · simp at h1; subst h1; exact hd
  | some bp =>
    obtain ⟨b, bd⟩ := bp
    obtain ⟨hb, hbd, hbd1, hmin⟩ := h
    unfold corrStep
    show CorrGood input (S ++ [m])
      (if (decide (lev input (majNorm m) < bd) &&
          decide (lev input (majNorm m) ≤ 1)) = true then
        some (m, lev input (majNorm m)) else some (b, bd))
    by_cases hcond : (decide (lev input (majNorm m) < bd) &&
        decide (lev input (majNorm m) ≤ 1)) = true
    · have hp : lev input (majNorm m) < bd ∧ lev input (majNorm m) ≤ 1 := by
        simpa using hcond
      rw [if_pos hcond]
      refine ⟨by simp, rfl, hp.2, ?_⟩
      intro x hx
      rcases List.mem_append.mp hx with h1 | h1
      · have := hmin x h1; omega
      · simp at h1; subst h1; omega
    · have hp : ¬ (lev input (majNorm m) < bd ∧
          lev input (majNorm m) ≤ 1) := by
        intro hc
        exact hcond (by simp [hc.1, hc.2])
      rw [if_neg hcond]
      refine ⟨List.mem_append.mpr (Or.inl hb), hbd, hbd1, ?_⟩
      intro x hx
      rcases List.mem_append.mp hx with h1 | h1
      · exact hmin x h1
      · simp at h1; subst h1
        by_cases hle : lev input (majNorm x) ≤ 1
        · have : ¬ lev input (majNorm x) < bd := fun hlt => hp ⟨hlt, hle⟩
          omega
        · omega

theorem corrFold_spec (input : List Char) :
    CorrGood input allMajorsList (corrFold input) := by
  have hgen : ∀ (L S : List String) (st : Option (String × Nat)),
      CorrGood input S st →
      CorrGood input (S ++ L) (L.foldl (corrStep input) st) := by
    intro L
    induction L with
    | nil => intro S st h; simpa using h
    | cons m ms ih =>
      intro S st h
      have h3 := ih (S ++ [m]) _ (corrGood_step input S st m h)
      simpa [List.append_assoc] using h3
  have h0 : CorrGood input [] (none : Option (String × Nat)) := by
    intro m hm
    simp at hm
  simpa using hgen allMajorsList [] none h0

theorem allMajors_tier (m : String) (hm : m ∈ allMajorsList) :
    tierMatch m.data = true := by
  have h : allMajorsList.all (fun x => tierMatch x.data) = true := by decide
  exact List.all_eq_true.mp h m hm

theorem processInput_fallback (acc : List String) (input : List Char)
    (hTier : tierMatch input = false) :
    processInput acc input =
      (if correctMajor input ≠ String.mk input then
        addSet acc (correctMajor input) else acc) := by
  unfold processInput
  rw [tiers2to5_no_match input acc hTier]
  simp

/-- Claim C1 amended: for an atomic input matched by none of tiers 2-5,
if some taxonomy major (suffixes stripped, case-folded) is within edit
distance 1, `findRelatedMajor`'s per-input step adds a minimum-distance
such major to the result set; but if every taxonomy major is at distance
2 or more, the step adds nothing at all — the atomic input is dropped,
not passed through verbatim (the corrector returns the input unchanged
and the caller only adds a changed correction). -/
theorem claim_C1_amended (acc : List String) (input : List Char)
    (hTier : tierMatch input = false) :
    ((∀ m ∈ allMajorsList, 2 ≤ lev input (majNorm m)) →
      processInput acc input = acc) ∧
    (∀ m₀ ∈ allMajorsList, lev input (majNorm m₀) ≤ 1 →
      processInput acc input = addSet acc (correctMajor input) ∧
      correctMajor input ∈ allMajorsList ∧
      ∀ m ∈ allMajorsList,
        lev input (majNorm (correctMajor input)) ≤ lev input (majNorm m)) := by
  have hspec := corrFold_spec input
  constructor
  · intro hfar
    cases hcf : corrFold input with
    | some bp =>
      obtain ⟨b, bd⟩ := bp
      rw [hcf] at hspec
      obtain ⟨hb, hbd, hbd1, _⟩ := hspec
      have := hfar b hb
      omega
    | none =>
      rw [processInput_fallback acc input hTier]
      have hc : correctMajor input = String.mk input := by
        unfold correctMajor
        rw [hcf]
      rw [hc]
      simp
  · intro m₀ hm₀ hnear
    cases hcf : corrFold input with
    | none =>
      rw [hcf] at hspec
      exact absurd hnear (hspec m₀ hm₀)
    | some bp =>
      obtain ⟨b, bd⟩ := bp
      rw [hcf] at hspec
      obtain ⟨hb, hbd, hbd1, hmin⟩ := hspec
      have hc : correctMajor input = b := by
        unfold correctMajor
        rw [hcf]
      have hne : b ≠ String.mk input := by
        intro he
        have ht := allMajors_tier b hb
        rw [he] at ht
        rw [show (String.mk input).data = input from rfl] at ht
        rw [hTier] at ht
        exact Bool.false_ne_true ht
      rw [processInput_fallback acc input hTier, hc, if_pos hne]
      refine ⟨rfl, hb, ?_⟩
      intro m hm
      rw [← hbd]
      exact hmin m hm

/-- Claim C1 counterexample: the atomic input "qqq" matches no tier, every
taxonomy major is at edit distance at least 2 from it, and yet
`findRelatedMajor` returns the empty set — the input is not passed
through verbatim as the claim states. -/
theorem claim_C1_counterexample :
    tierMatch (("qqq").data) = false ∧
    (∀ m ∈ allMajorsList, 2 ≤ lev (("qqq").data) (majNorm m)) ∧
    findRelatedMajor ["qqq"] = [] ∧ ("qqq" : String) ∉ findRelatedMajor ["qqq"] := by
  refine ⟨by decide, by decide, by decide, by decide⟩

/-- Witness for claim C1 amended: "간x" matches no tier and sits at edit
distance 1 from the stripped form of "간호학과", and the per-input step
adds the corrected major. -/
theorem claim_C1_amended_witness :
    processInput [] (("간x").data) = addSet [] (correctMajor (("간x").data)) :=
  (((claim_C1_amended [] (("간x").data) (by decide)).2 ("간호학과")
    (by decide)) (by decide)).1

/-! ### Claim C7: working-hours fail-fast -/

/-- A decomposition of `l` witnessing an occurrence of the
`convertToISO8601` pattern `(\d{1,2})시\s*(\d{1,2})분` with hour digits
`h`, inner whitespace `w` and minute digits `m`, at offset `a.length`. -/
def Decomp (l a h w m b : List Char) : Prop :=
  l = a ++ (h ++ '시' :: (w ++ (m ++ '분' :: b))) ∧
  (h.length = 1 ∨ h.length = 2) ∧ (∀ c ∈ h, c.isDigit = true) ∧
  (∀ c ∈ w, isWs c = true) ∧
  (m.length = 1 ∨ m.length = 2) ∧ (∀ c ∈ m, c.isDigit = true)

/-- The input contains an occurrence of the hour-minute phrase. -/
def HasHourMinute (l : List Char) : Prop :=
  ∃ a h w m b, Decomp l a h w m b

theorem digit_not_ws (c : Char) (h : c.isDigit = true) : isWs c = false := by
  cases hws : isWs c with
  | false => rfl
  | true =>
    simp only [isWs, Bool.or_eq_true, beq_iff_eq] at hws
    rcases hws with ((h1 | h1) | h1) | h1 <;> subst h1 <;>
      exact absurd h (by decide)

theorem digitsLit_shape (suf l h r : List Char)
    (hd : digitsLit suf l = some (h, r)) :
    l = h ++ (suf ++ r) ∧ (h.length = 1 ∨ h.length = 2) ∧
    ∀ c ∈ h, c.isDigit = true := by
  unfold digitsLit at hd
  cases h2 : try2Lit suf l with
  | some p =>
    rw [h2] at hd
    simp only [Option.some_orElse] at hd
    have hp : p = (h, r) := by injection hd
    subst hp
    cases l with
    | nil => simp [try2Lit] at h2
    | cons a t =>
      cases t with
      | nil => simp [try2Lit] at h2
      | cons bb rest =>
        simp only [try2Lit] at h2
        by_cases hcond : (a.isDigit && bb.isDigit && leadsWith suf rest) = true
        · rw [if_pos hcond] at h2
          simp only [Bool.and_eq_true] at hcond
          injection h2 with t1
          rw [Prod.mk.injEq] at t1
          obtain ⟨hh, hr⟩ := t1
          obtain ⟨r2, hr2⟩ := (leadsWith_iff_append suf rest).mp hcond.2
          subst hr2
          rw [List.drop_left] at hr
          refine ⟨?_, ?_, ?_⟩
          · rw [← hh, ← hr]; simp
          · rw [← hh]; simp
          · intro c hc
            rw [← hh] at hc
            simp at hc
            rcases hc with h1 | h1 <;> subst h1
            · exact hcond.1.1
            · exact hcond.1.2
        · rw [if_neg hcond] at h2
          exact absurd h2 (by simp)
  | none =>
    rw [h2] at hd
    simp only [Option.none_orElse] at hd
    cases l with
    | nil => simp [try1Lit] at hd
    | cons a t =>
      simp only [try1Lit] at hd
      by_cases hcond : (a.isDigit && leadsWith suf t) = true
      · rw [if_pos hcond] at hd
        simp only [Bool.and_eq_true] at hcond
        injection hd with t1
        rw [Prod.mk.injEq] at t1
        obtain ⟨hh, hr⟩ := t1
        obtain ⟨r2, hr2⟩ := (leadsWith_iff_append suf t).mp hcond.2
        subst hr2
        rw [List.drop_left] at hr
        refine ⟨?_, ?_, ?_⟩
        · rw [← hh, ← hr]; simp
        · rw [← hh]; simp
        · intro c hc
          rw [← hh] at hc
          simp at hc
          subst hc
          exact hcond.1
      · rw [if_neg hcond] at hd
        exact absurd hd (by simp)

theorem matchTime_shape (l h m : List Char)
    (hs : matchTime l = some (h, m)) : ∃ w b, Decomp l [] h w m b := by
  unfold matchTime at hs
  cases h1 : digitsLit (['시']) l with
  | none => rw [h1] at hs; simp at hs
  | some p1 =>
    obtain ⟨h0, r1⟩ := p1
    rw [h1] at hs
    simp only [Option.bind_eq_bind, Option.some_bind] at hs
    cases h2 : digitsLit (['분']) (r1.dropWhile isWs) with
    | none => rw [h2] at hs; simp at hs
    | some p2 =>
      obtain ⟨m0, r2⟩ := p2
      rw [h2] at hs
      simp only [Option.some_bind] at hs
      injection hs with hs'
      injection hs' with hh hm
      subst hh; subst hm
      obtain ⟨e1, l1, d1⟩ := digitsLit_shape _ _ _ _ h1
      obtain ⟨e2, l2, d2⟩ := digitsLit_shape _ _ _ _ h2
      refine ⟨r1.takeWhile isWs, r2, ?_, l1, d1, ?_, l2, d2⟩
      · rw [e1]
        simp only [List.nil_append, List.singleton_append, List.cons_append,
          List.append_assoc]
        congr 1
        congr 1
        conv_lhs => rw [← List.takeWhile_append_dropWhile (p := isWs) (l := r1)]
        rw [e2]
        simp
      · intro c hc
        exact List.mem_takeWhile_imp hc

theorem matchTime_of_decomp (l h w m b : List Char)
    (hd : Decomp l [] h w m b) : (matchTime l).isSome = true := by
  obtain ⟨he, hl, hdg, hws, ml, mdg⟩ := hd
  simp only [List.nil_append] at he
  have hdrop : (w ++ (m ++ '분' :: b)).dropWhile isWs = m ++ '분' :: b := by
    rw [dropWhile_append_all isWs w _ hws]
    cases m with
    | nil => rcases ml with h1 | h1 <;> simp at h1
    | cons e es =>
      exact dropWhile_cons_false isWs e _
        (digit_not_ws e (mdg e (by simp)))
  have hmin2 : digitsLit (['분']) (m ++ '분' :: b) = some (m, b) := by
    cases m with
    | nil => rcases ml with h1 | h1 <;> simp at h1
    | cons e es =>
      cases es with
      | nil =>
        simp [digitsLit, try2Lit, try1Lit, mdg e (by simp), leadsWith_refl,
          leadsWith]
      | cons e2 es2 =>
        cases es2 with
        | nil =>
          simp [digitsLit, try2Lit, mdg e (by simp), mdg e2 (by simp),
            leadsWith, leadsWith_refl]
        | cons e3 es3 => rcases ml with h1 | h1 <;> simp at h1
  have hhour : digitsLit (['시']) l = some (h, w ++ (m ++ '분' :: b)) := by
    cases h with
    | nil => rcases hl with h1 | h1 <;> simp at h1
    | cons d ds =>
      cases ds with
      | nil =>
        rw [he]
        simp [digitsLit, try2Lit, try1Lit, hdg d (by simp), leadsWith]
      | cons d2 ds2 =>
        cases ds2 with
        | nil =>
          rw [he]
          simp [digitsLit, try2Lit, hdg d (by simp), hdg d2 (by simp),
            leadsWith]
        | cons d3 ds3 => rcases hl with h1 | h1 <;> simp at h1
  unfold matchTime
  rw [hhour]
  simp only [Option.bind_eq_bind, Option.some_bind]
  rw [hdrop, hmin2]
  simp

theorem decomp_cons (c : Char) (cs a h w m b : List Char)
    (hd : Decomp cs a h w m b) : Decomp (c :: cs) (c :: a) h w m b := by
  obtain ⟨he, rest⟩ := hd
  exact ⟨by rw [he]; rfl, rest⟩

theorem decomp_uncons (c : Char) (cs : List Char) (c2 : Char)
    (a2 h w m b : List Char)
    (hd : Decomp (c :: cs) (c2 :: a2) h w m b) : Decomp cs a2 h w m b := by
  obtain ⟨he, rest⟩ := hd
  simp only [List.cons_append, List.cons.injEq] at he
  exact ⟨he.2, rest⟩

theorem scan_matchTime_decomp (l h m : List Char)
    (hs : scanOpt matchTime l = some (h, m)) :
    ∃ a w b, Decomp l a h w m b ∧
      ∀ a2 h2 w2 m2 b2, Decomp l a2 h2 w2 m2 b2 →
        a.length ≤ a2.length := by
  induction l with
  | nil =>
    have : scanOpt matchTime [] = none := rfl
    rw [this] at hs
    exact absurd hs (by simp)
  | cons c cs ih =>
    rw [show scanOpt matchTime (c :: cs) =
      (matchTime (c :: cs) <|> scanOpt matchTime cs) from rfl] at hs
    cases hf : matchTime (c :: cs) with
    | some p =>
      rw [hf] at hs
      simp only [Option.some_orElse] at hs
      have hp : p = (h, m) := by injection hs
      subst hp
      obtain ⟨w, b, hd⟩ := matchTime_shape (c :: cs) h m hf
      exact ⟨[], w, b, hd, fun a2 h2 w2 m2 b2 hd2 => Nat.zero_le _⟩
    | none =>
      rw [hf] at hs
      simp only [Option.none_orElse] at hs
      obtain ⟨a, w, b, hd, hmin⟩ := ih hs
      refine ⟨c :: a, w, b, decomp_cons c cs a h w m b hd, ?_⟩
      intro a2 h2 w2 m2 b2 hdec2
      cases a2 with
      | nil =>
        have hsome := matchTime_of_decomp _ _ _ _ _ hdec2
        rw [hf] at hsome
        simp at hsome
      | cons c2 a2' =>
        have := hmin a2' h2 w2 m2 b2 (decomp_uncons c cs c2 a2' h2 w2 m2 b2 hdec2)
        simp only [List.length_cons]
        omega

theorem scan_of_decomp (a : List Char) : ∀ l h w m b : List Char,
    Decomp l a h w m b → (scanOpt matchTime l).isSome = true := by
  induction a with
  | nil =>
    intro l h w m b hd
    have hsome := matchTime_of_decomp l h w m b hd
    obtain ⟨he, _⟩ := hd
    cases l with
    | nil => simp at he
    | cons c cs =>
      rw [show scanOpt matchTime (c :: cs) =
        (matchTime (c :: cs) <|> scanOpt matchTime cs) from rfl]
      cases hf : matchTime (c :: cs) with
      | some p => simp
      | none => rw [hf] at hsome; simp at hsome
  | cons c a' ih =>
    intro l h w m b hd
    cases l with
    | nil =>
      obtain ⟨he, _⟩ := hd
      simp at he
    | cons c0 cs =>
      obtain ⟨he, rest⟩ := hd
      simp only [List.cons_append, List.cons.injEq] at he
      have hd' : Decomp cs a' h w m b := ⟨he.2, rest⟩
      have hih := ih cs h w m b hd'
      rw [show scanOpt matchTime (c0 :: cs) =
        (matchTime (c0 :: cs) <|> scanOpt matchTime cs) from rfl]
      cases hf : matchTime (c0 :: cs) with
      | some p => simp
      | none => simpa using hih

theorem scan_of_has (l : List Char) (hh : HasHourMinute l) :
    (scanOpt matchTime l).isSome = true := by
  obtain ⟨a, h, w, m, b, hd⟩ := hh
  exact scan_of_decomp a l h w m b hd

theorem convert_isOk_iff (t : String) :
    (convertToISO8601 t).isOk = true ↔ HasHourMinute t.data := by
  unfold convertToISO8601
  cases hs : scanOpt matchTime t.data with
  | some p =>
    obtain ⟨h, m⟩ := p
    simp only [Except.isOk, Except.toBool]
    constructor
    · intro _
      obtain ⟨a, w, b, hd, _⟩ := scan_matchTime_decomp t.data h m hs
      exact ⟨a, h, w, m, b, hd⟩
    · intro _; trivial
  | none =>
    simp only [Except.isOk, Except.toBool]
    constructor
    · intro hc; exact absurd hc (by simp)
    · intro hh
      have := scan_of_has t.data hh
      rw [hs] at this
      simp at this

theorem convert_ok_shape (t : String) (h m : List Char)
    (hs : scanOpt matchTime t.data = some (h, m)) :
    convertToISO8601 t = Except.ok (String.mk (pad2 h ++ ':' :: pad2 m)) := by
  unfold convertToISO8601
  rw [hs]

theorem convert_err_shape (t : String)
    (hs : scanOpt matchTime t.data = none) :
    convertToISO8601 t = Except.error ("Invalid time format: " ++ t) := by
  unfold convertToISO8601
  rw [hs]

theorem except_bind_ok {A B : Type} (v : A) (f : A → Except String B) :
    Except.bind (Except.ok v) f = f v := rfl

theorem except_bind_err {A B : Type} (e : String) (f : A → Except String B) :
    Except.bind (Except.error e) f = Except.error e := rfl

theorem hwh_nil (s : String)
    (hp : (splitCharL ('~') s.data).map trimChars = []) :
    handleWorkingHours s = Except.error ("TypeError") := by
  unfold handleWorkingHours
  rw [hp]

theorem hwh_one (s : String) (start : List Char)
    (hp : (splitCharL ('~') s.data).map trimChars = [start]) :
    handleWorkingHours s =
      (match convertToISO8601 (String.mk start) with
        | Except.ok _ => Except.error ("TypeError")
        | Except.error e => Except.error e) := by
  unfold handleWorkingHours
  rw [hp]

theorem hwh_two (s : String) (start q : List Char) (r0 : List (List Char))
    (hp : (splitCharL ('~') s.data).map trimChars = start :: q :: r0) :
    handleWorkingHours s =
      Except.bind (convertToISO8601 (String.mk start)) (fun a =>
        Except.bind (convertToISO8601 (String.mk q)) (fun b =>
          Except.ok (a, b))) := by
  unfold handleWorkingHours
  rw [hp]
  rfl

/-- Claim C7: `convertToISO8601` fails (with the "Invalid time format"
error) exactly when the input contains no substring of the form
`<1-2 digits>시<whitespace><1-2 digits>분`; otherwise it returns the
zero-padded HH:MM built from the leftmost such substring.  Consequently
`handleWorkingHours` succeeds exactly when the split produces at least
two endpoints and both contain an hour-minute phrase — a malformed
endpoint raises instead of producing a default. -/
theorem claim_C7 (s : String) :
    ((convertToISO8601 s).isOk = true ↔ HasHourMinute s.data) ∧
    (¬ HasHourMinute s.data →
      convertToISO8601 s = Except.error ("Invalid time format: " ++ s)) ∧
    (∀ h m, scanOpt matchTime s.data = some (h, m) →
      convertToISO8601 s = Except.ok (String.mk (pad2 h ++ ':' :: pad2 m)) ∧
      ∃ a w b, Decomp s.data a h w m b ∧
        ∀ a2 h2 w2 m2 b2, Decomp s.data a2 h2 w2 m2 b2 →
          a.length ≤ a2.length) ∧
    ((handleWorkingHours s).isOk = true ↔
      ∃ p q r, (splitCharL ('~') s.data).map trimChars = p :: q :: r ∧
        HasHourMinute p ∧ HasHourMinute q) := by
  refine ⟨convert_isOk_iff s, ?_, ?_, ?_⟩
  · intro hnot
    cases hs : scanOpt matchTime s.data with
    | some p =>
      obtain ⟨h, m⟩ := p
      obtain ⟨a, w, b, hd, _⟩ := scan_matchTime_decomp s.data h m hs
      exact absurd ⟨a, h, w, m, b, hd⟩ hnot
    | none => exact convert_err_shape s hs
  · intro h m hs
    exact ⟨convert_ok_shape s h m hs, scan_matchTime_decomp s.data h m hs⟩
  · cases hp : (splitCharL ('~') s.data).map trimChars with
    | nil =>
      rw [hwh_nil s hp]
      constructor
      · intro hc
        simp [Except.isOk, Except.toBool] at hc
      · rintro ⟨p, q, r, heq, _, _⟩
        simp at heq
    | cons start t =>
      cases t with
      | nil =>
        rw [hwh_one s start hp]
        constructor
        · intro hc
          cases hc1 : convertToISO8601 (String.mk start) with
          | ok v => rw [hc1] at hc; simp [Except.isOk, Except.toBool] at hc
          | error e => rw [hc1] at hc; simp [Except.isOk, Except.toBool] at hc
        · rintro ⟨p, q, r, heq, _, _⟩
          simp at heq
      | cons q r0 =>
        rw [hwh_two s start q r0 hp]
        have hiff1 := convert_isOk_iff (String.mk start)
        have hiff2 := convert_isOk_iff (String.mk q)
        constructor
        · intro hc
          refine ⟨start, q, r0, rfl, ?_, ?_⟩
          · cases hc1 : convertToISO8601 (String.mk start) with
            | error e =>
              rw [hc1, except_bind_err] at hc
              simp [Except.isOk, Except.toBool] at hc
            | ok v =>
              exact hiff1.mp (by rw [hc1]; rfl)
          · cases hc2 : convertToISO8601 (String.mk q) with
            | error e =>
              cases hc1 : convertToISO8601 (String.mk start) with
              | error e1 =>
                rw [hc1, except_bind_err] at hc
                simp [Except.isOk, Except.toBool] at hc
              | ok v =>
                rw [hc1, except_bind_ok, hc2, except_bind_err] at hc
                simp [Except.isOk, Except.toBool] at hc
            | ok v =>
              exact hiff2.mp (by rw [hc2]; rfl)
        · rintro ⟨p, q', r', heq, hhp, hhq⟩
          simp only [List.cons.injEq] at heq
          obtain ⟨hps, hqq, _⟩ := heq
          subst hps; subst hqq
          have h1 := hiff1.mpr hhp
          have h2 := hiff2.mpr hhq
          cases hc1 : convertToISO8601 (String.mk start) with
          | error e => rw [hc1] at h1; simp [Except.isOk, Except.toBool] at h1
          | ok v =>
            cases hc2 : convertToISO8601 (String.mk q) with
            | error e =>
              rw [hc2] at h2
              simp [Except.isOk, Except.toBool] at h2
            | ok w => rfl

/-- Witness for claim C7: "9시 5분" contains an hour-minute phrase, via
the success of `convertToISO8601` on it. -/
theorem claim_C7_witness : HasHourMinute (("9시 5분").data) :=
  (claim_C7 ("9시 5분")).1.mp (by decide)
